import Mathlib

/-!
Shallow embedding of the wordlist-generation core of
`password_analyzer.py`: the configuration constants, `permutations_case`,
`leet_variants`, `expand_years` and `generate_from_parts`, together with
proofs of the specification claims about them.

Modelling conventions:
* Python strings are Lean `String` (a wrapper around `List Char`);
  ASCII case mapping models `str.lower` / `str.upper` / `str.capitalize`.
* A Python `set` accumulator is modelled as a duplicate-free list in
  insertion order (CPython set iteration order is implementation
  defined; every property proved below is insensitive to that order
  except where a comment notes the choice).
* A raised exception is modelled as `Option.none`.
-/

set_option maxRecDepth 10000

namespace PasswordAnalyzer

universe u v

variable {α : Type u} {β : Type v}

/-- Model of Python `str.strip`: drop whitespace from both ends. -/
def pyStrip (s : String) : String :=
  String.mk (((s.data.dropWhile Char.isWhitespace).reverse.dropWhile
    Char.isWhitespace).reverse)

/-- Parse a nonempty all-digit character list as a natural number
(helper for `pyInt`). -/
def digitsToNat (ds : List Char) : Option Nat :=
  if ds.isEmpty then none
  else if ds.all Char.isDigit then
    some (ds.foldl (fun a c => a * 10 + (c.toNat - 48)) 0)
  else none

/-- Model of Python `int(str)`: strip whitespace, optional sign, decimal
digits; `none` models a raised `ValueError`.  (Underscore separators and
non-ASCII digits accepted by CPython are not modelled.) -/
def pyInt (s : String) : Option Int :=
  match (pyStrip s).data with
  | '-' :: ds => (digitsToNat ds).map (fun n => -(n : Int))
  | '+' :: ds => (digitsToNat ds).map (fun n => (n : Int))
  | ds => (digitsToNat ds).map (fun n => (n : Int))

/-- Model of Python `range(a, b)` as a list of integers. -/
def pyRange (a b : Int) : List Int :=
  (List.range (b - a).toNat).map (fun i => a + (i : Int))

/-- Model of Python `str(...)` on an integer. -/
def pyStr (y : Int) : String :=
  if y < 0 then "-" ++ String.mk (Nat.toDigits 10 (-y).toNat)
  else String.mk (Nat.toDigits 10 y.toNat)

/-- `expand_years` from `password_analyzer.py` (lines 94-105): empty
input gives an empty list, a single token is parsed, two tokens are
range-expanded between the smaller and the larger bound inclusive, and
longer inputs are parsed element-wise.  A parse failure raises
(`none`). -/
def expand_years (years_arg : List String) : Option (List Int) :=
  match years_arg with
  | [] => some []
  | [y] => (pyInt y).map (fun n => [n])
  | [y0, y1] =>
    (pyInt y0).bind (fun a => (pyInt y1).bind (fun b =>
      if a ≤ b then some (pyRange a (b + 1)) else some (pyRange b (a + 1))))
  | ys => ys.mapM pyInt

/-- `COMMON_SUFFIXES` from the configuration block. -/
def COMMON_SUFFIXES : List String :=
  ["", "1", "12", "123", "1234", "12345", "!", "@", "#", "$",
   "2022", "2023", "2024", "2025"]

/-- `COMMON_PREFIXES` from the configuration block. -/
def COMMON_PREFIXES : List String := ["", "!", "@", "#"]

/-- `LEET_MAP` from the configuration block. -/
def LEET_MAP : List (Char × List Char) :=
  [('a', ['4', '@']), ('A', ['4', '@']),
   ('e', ['3']), ('E', ['3']),
   ('i', ['1', '!']), ('I', ['1', '!']),
   ('o', ['0']), ('O', ['0']),
   ('s', ['5', '$']), ('S', ['5', '$']),
   ('t', ['7']), ('T', ['7']),
   ('l', ['1']), ('L', ['1'])]

/-- `MAX_LEET_VARIANTS_PER_WORD` constant. -/
def MAX_LEET_VARIANTS_PER_WORD : Nat := 40

/-- `MAX_COMBINED_WORDS` constant. -/
def MAX_COMBINED_WORDS : Nat := 20000

/-- `MAX_COMBO_PARTS` constant. -/
def MAX_COMBO_PARTS : Nat := 3

/-- Dictionary lookup `LEET_MAP.get(ch)`. -/
def leetLookup (c : Char) : Option (List Char) :=
  (LEET_MAP.find? (fun p => p.1 == c)).map (fun p => p.2)

/-- Model of Python `str.lower` (ASCII). -/
def pyLower (s : String) : String := String.mk (s.data.map Char.toLower)

/-- Model of Python `str.upper` (ASCII). -/
def pyUpper (s : String) : String := String.mk (s.data.map Char.toUpper)

/-- Model of Python `str.capitalize` (ASCII): first character uppercased,
all remaining characters lowercased. -/
def pyCapitalize (s : String) : String :=
  match s.data with
  | [] => ""
  | c :: cs => String.mk (c.toUpper :: cs.map Char.toLower)

/-- The expression `word[0].upper() + word[1:].lower()` from
`permutations_case`; in the ASCII model it coincides with
`pyCapitalize`, but the source computes it separately for words of
length greater than one. -/
def firstUpperRestLower (s : String) : String :=
  match s.data with
  | [] => ""
  | c :: cs => String.mk (c.toUpper :: cs.map Char.toLower)

/-- Python `set.add` modelled on a duplicate-free list in insertion
order. -/
def pySetAdd (l : List String) (x : String) : List String :=
  if x ∈ l then l else l ++ [x]

/-- Strict lexicographic comparison of character lists by code point,
as used by Python string comparison. -/
def lexLtB : List Char → List Char → Bool
  | [], [] => false
  | [], _ :: _ => true
  | _ :: _, [] => false
  | a :: as, b :: bs =>
    if a.toNat < b.toNat then true
    else if b.toNat < a.toNat then false
    else lexLtB as bs

/-- Python string `<` (code-point lexicographic). -/
def strLtB (a b : String) : Bool := lexLtB a.data b.data

/-- Python string `<=` as a proposition: `b` is not strictly below
`a`. -/
def strLe (a b : String) : Prop := strLtB b a = false

instance : DecidableRel strLe := fun _ _ => inferInstanceAs (Decidable (_ = false))

/-- `permutations_case` from `password_analyzer.py` (lines 54-62). -/
def permutations_case (word : String) : List String :=
  let s := pySetAdd [] word
  let s := pySetAdd s (pyLower word)
  let s := pySetAdd s (pyUpper word)
  let s := pySetAdd s (pyCapitalize word)
  let s := if 1 < word.data.length then pySetAdd s (firstUpperRestLower word) else s
  List.insertionSort strLe s

/-- `itertools.combinations(l, r)` in the source's iteration order:
order-preserving selections of `r` positions. -/
def combinationsLen : Nat → List α → List (List α)
  | 0, _ => [[]]
  | _ + 1, [] => []
  | r + 1, x :: xs =>
    ((combinationsLen r xs).map (fun c => x :: c)) ++ combinationsLen (r + 1) xs

/-- Body of the inner loop of `leet_variants`: replace each selected
position by the first substitute listed for the character found there in
the original word. -/
def applyCombo (chars : List Char) (combo : List Nat) : List Char :=
  combo.foldl (fun base idx =>
    match leetLookup (chars.getD idx ' ') with
    | some (c :: _) => base.set idx c
    | _ => base) chars

/-- The list `indices` of `leet_variants`: positions whose character is
a key of `LEET_MAP`. -/
def leetIndices (chars : List Char) : List Nat :=
  (chars.enum.filter (fun p => (leetLookup p.2).isSome)).map (fun p => p.1)

/-- The double loop of `leet_variants` (`for r in range(1, min(3,
len(indices)+1)): for combo in itertools.combinations(indices, r): ...`),
inserting each substituted variant into the accumulating set. -/
def leetFold (chars : List Char) (indices : List Nat)
    (variants : List String) : List String :=
  ((List.range (min 3 (indices.length + 1))).drop 1).foldl
    (fun vs r => (combinationsLen r indices).foldl
      (fun vs2 combo => pySetAdd vs2 (String.mk (applyCombo chars combo))) vs)
    variants

/-- The `base_all` replace-all word of `leet_variants`: every mapped
character replaced by its first substitution entry. -/
def leetAll (chars : List Char) : List Char :=
  chars.map (fun ch =>
    match leetLookup ch with
    | some (c :: _) => c
    | _ => ch)

/-- The complete `variants` set accumulated by `leet_variants` before
the final truncation `list(variants)[:max_variants]`: the original word,
every substitution of one or two mappable positions, and the replace-all
form when some position is mappable.  As a set of strings this is fully
determined by the source; the list order is the insertion order of the
model. -/
def leetVariantsSet (word : String) : List String :=
  let chars := word.data
  let indices := leetIndices chars
  let variants := pySetAdd [] word
  let variants := leetFold chars indices variants
  let base_all := leetAll chars
  let changed := chars.any (fun ch => (leetLookup ch).isSome)
  if changed then pySetAdd variants (String.mk base_all) else variants

/-- `leet_variants` from `password_analyzer.py` (lines 64-92):
`list(variants)[:max_variants]`.  CPython iterates the set in an
implementation-defined (hash-dependent) order, so *which* variants
survive a truncation that actually drops elements is not determined by
the source; the model's `take` on the insertion order is one such
order.  Every property proved below either holds for all orders
(membership of every element, element lengths, the empty result at
bound `0`) or assumes the truncation drops nothing. -/
def leet_variants (word : String) (max_variants : Nat) : List String :=
  (leetVariantsSet word).take max_variants

/-- All ways to pick one element out of a list, each paired with the
remaining elements in their relative order. -/
def selectOne : List α → List (α × List α)
  | [] => []
  | x :: xs => (x, xs) :: (selectOne xs).map (fun p => (p.1, x :: p.2))

/-- `itertools.permutations(l, r)`: ordered selections of `r` distinct
positions of `l` (elements are treated as unique by position, exactly as
in `itertools`). -/
def permsR : List α → Nat → List (List α)
  | _, 0 => [[]]
  | l, r + 1 =>
    (selectOne l).flatMap (fun p => (permsR p.2 r).map (fun c => p.1 :: c))

/-- Python `s[::-1]`. -/
def pyReverse (s : String) : String := String.mk s.data.reverse

/-- The strings inserted for one case variant `form`: the form itself,
its leet variants, the suffixed, prefixed and year-suffixed copies, in
source order. -/
def formDecorations (years : List Int) (form : String) : List String :=
  form :: (leet_variants form MAX_LEET_VARIANTS_PER_WORD
    ++ COMMON_SUFFIXES.map (fun suf => form ++ suf)
    ++ COMMON_PREFIXES.map (fun pre => pre ++ form)
    ++ years.map (fun y => form ++ pyStr y))

/-- Repetition rule of the single-part loop (lines 128-130): doubled and
tripled forms. -/
def singleRepeats (add_repeats : Bool) (p : String) : List String :=
  if add_repeats then [p ++ p, p ++ p ++ p] else []

/-- Repetition rule of the combination loop (lines 148-149): doubled
form only. -/
def comboRepeats (add_repeats : Bool) (base : String) : List String :=
  if add_repeats then [base ++ base] else []

/-- Strings inserted by the single-part loop for one part. -/
def partAdds (years : List Int) (add_reversed add_repeats : Bool)
    (part : String) : List String :=
  (permutations_case part).flatMap (formDecorations years)
    ++ (if add_reversed then [pyReverse part] else [])
    ++ singleRepeats add_repeats part

/-- Strings inserted by the combination loop for one candidate base. -/
def comboAdds (years : List Int) (add_reversed add_repeats : Bool)
    (base : String) : List String :=
  (permutations_case base).flatMap (formDecorations years)
    ++ (if add_reversed then [pyReverse base] else [])
    ++ comboRepeats add_repeats base

/-- Every string inserted into the accumulating set by
`generate_from_parts`, in program order.  The optional NLTK
tokenization branch is modelled as unavailable (`NLTK_AVAILABLE =
False`), as on a system without `nltk`. -/
def addedStrings (parts : List String) (years : List Int)
    (add_reversed add_repeats : Bool) : List String :=
  parts.flatMap (partAdds years add_reversed add_repeats)
    ++ ((List.range (min MAX_COMBO_PARTS parts.length)).map (fun r0 => r0 + 1)).flatMap
        (fun r => (permsR parts r).flatMap
          (fun combo => comboAdds years add_reversed add_repeats (String.join combo)))

/-- The blank filter `[p for p in parts if p and p.strip()]`. -/
def pyFilter (parts : List String) : List String :=
  parts.filter (fun p => !p.data.isEmpty && !(pyStrip p).data.isEmpty)

/-- The sorted deduplicated word list before truncation
(`words_list = sorted(words)` in the source). -/
def wordsListOf (parts : List String) (years : List Int)
    (add_reversed add_repeats : Bool) : List String :=
  List.insertionSort strLe
    ((addedStrings parts years add_reversed add_repeats).foldl pySetAdd [])

/-- `generate_from_parts` from `password_analyzer.py` (lines 107-166):
filter blank parts, accumulate every decorated variant into a set, sort,
and truncate to `max_words`. -/
def generate_from_parts (parts : List String) (years : List Int)
    (max_words : Nat) (add_reversed add_repeats : Bool) : List String :=
  let parts2 := pyFilter parts
  if parts2.isEmpty then []
  else
    let words_list := wordsListOf parts2 years add_reversed add_repeats
    if max_words < words_list.length then words_list.take max_words
    else words_list

end PasswordAnalyzer

namespace PasswordAnalyzer

/-! ### Basic lemmas about the set model -/

theorem mem_pySetAdd {l : List String} {x y : String} :
    y ∈ pySetAdd l x ↔ y ∈ l ∨ y = x := by
  unfold pySetAdd
  by_cases h : x ∈ l
  · simp only [if_pos h]
    constructor
    · exact Or.inl
    · rintro (hy | rfl)
      · exact hy
      · exact h
  · simp [if_neg h]

theorem pySetAdd_nodup {l : List String} (h : l.Nodup) (x : String) :
    (pySetAdd l x).Nodup := by
  unfold pySetAdd
  by_cases hx : x ∈ l
  · simpa [if_pos hx]
  · rw [if_neg hx]
    have h2 : l.Nodup ∧ x ∉ l := ⟨h, hx⟩
    simpa [List.nodup_append] using h2

theorem foldl_pySetAdd_mem :
    ∀ (l : List String) (acc : List String) (y : String),
      y ∈ l.foldl pySetAdd acc ↔ y ∈ acc ∨ y ∈ l := by
  intro l
  induction l with
  | nil => simp
  | cons x xs ih =>
    intro acc y
    simp only [List.foldl_cons, ih, mem_pySetAdd, List.mem_cons]
    tauto

theorem foldl_pySetAdd_nodup :
    ∀ (l : List String) (acc : List String), acc.Nodup →
      (l.foldl pySetAdd acc).Nodup := by
  intro l
  induction l with
  | nil => intro acc h; simpa
  | cons x xs ih =>
    intro acc h
    exact ih _ (pySetAdd_nodup h x)

theorem foldl_mem_of_step {γ : Type} (step : List String → γ → List String)
    (P : String → Prop)
    (hstep : ∀ vs a x, x ∈ step vs a → x ∈ vs ∨ P x) :
    ∀ (l : List γ) (acc : List String) (x : String),
      x ∈ l.foldl step acc → x ∈ acc ∨ P x := by
  intro l
  induction l with
  | nil => intro acc x hx; exact Or.inl hx
  | cons a as ih =>
    intro acc x hx
    rcases ih _ _ hx with h | h
    · exact hstep _ _ _ h
    · exact Or.inr h

theorem foldl_extends {γ : Type} (step : List String → γ → List String)
    (hstep : ∀ vs a, ∃ t, step vs a = vs ++ t) :
    ∀ (l : List γ) (acc : List String), ∃ t, l.foldl step acc = acc ++ t := by
  intro l
  induction l with
  | nil => intro acc; exact ⟨[], by simp⟩
  | cons a as ih =>
    intro acc
    obtain ⟨t1, ht1⟩ := hstep acc a
    obtain ⟨t2, ht2⟩ := ih (acc ++ t1)
    exact ⟨t1 ++ t2, by simp [List.foldl_cons, ht1, ht2]⟩

theorem pySetAdd_extends (l : List String) (x : String) :
    ∃ t, pySetAdd l x = l ++ t := by
  unfold pySetAdd
  by_cases h : x ∈ l
  · exact ⟨[], by simp [if_pos h]⟩
  · exact ⟨[x], by simp [if_neg h]⟩

/-! ### The code-point lexicographic order used by `sorted` -/

theorem charToNat_inj {a b : Char} (h : a.toNat = b.toNat) : a = b :=
  Char.eq_of_val_eq (UInt32.toNat.inj h)

theorem lexLtB_asymm :
    ∀ as bs : List Char, lexLtB as bs = true → lexLtB bs as = false := by
  intro as
  induction as with
  | nil =>
    intro bs h
    cases bs with
    | nil => simp [lexLtB] at h
    | cons b bs2 => simp [lexLtB]
  | cons a as2 ih =>
    intro bs h
    cases bs with
    | nil => simp [lexLtB] at h
    | cons b bs2 =>
      by_cases h1 : a.toNat < b.toNat
      · simp [lexLtB, h1, Nat.lt_asymm h1]
      · by_cases h2 : b.toNat < a.toNat
        · simp [lexLtB, h1, h2] at h
        · simp only [lexLtB, if_neg h1, if_neg h2] at h
          simp only [lexLtB, if_neg h2, if_neg h1]
          exact ih bs2 h

theorem lexLtB_trans :
    ∀ as bs cs : List Char,
      lexLtB as bs = true → lexLtB bs cs = true → lexLtB as cs = true := by
  intro as
  induction as with
  | nil =>
    intro bs cs h1 h2
    cases bs with
    | nil => simp [lexLtB] at h1
    | cons b bs2 =>
      cases cs with
      | nil => simp [lexLtB] at h2
      | cons c cs2 => simp [lexLtB]
  | cons a as2 ih =>
    intro bs cs h1 h2
    cases bs with
    | nil => simp [lexLtB] at h1
    | cons b bs2 =>
      cases cs with
      | nil => simp [lexLtB] at h2
      | cons c cs2 =>
        by_cases hab : a.toNat < b.toNat
        · by_cases hbc : b.toNat < c.toNat
          · have : a.toNat < c.toNat := Nat.lt_trans hab hbc
            simp [lexLtB, this]
          · by_cases hcb : c.toNat < b.toNat
            · simp [lexLtB, hbc, hcb] at h2
            · have hbceq : b.toNat = c.toNat := Nat.le_antisymm
                (Nat.le_of_not_lt hcb) (Nat.le_of_not_lt hbc)
              have : a.toNat < c.toNat := hbceq ▸ hab
              simp [lexLtB, this]
        · by_cases hba : b.toNat < a.toNat
          · simp [lexLtB, hab, hba] at h1
          · have habeq : a.toNat = b.toNat := Nat.le_antisymm
              (Nat.le_of_not_lt hba) (Nat.le_of_not_lt hab)
            simp only [lexLtB, if_neg hab, if_neg hba] at h1
            by_cases hbc : b.toNat < c.toNat
            · have : a.toNat < c.toNat := habeq ▸ hbc
              simp [lexLtB, this]
            · by_cases hcb : c.toNat < b.toNat
              · simp [lexLtB, hbc, hcb] at h2
              · simp only [lexLtB, if_neg hbc, if_neg hcb] at h2
                have hac : ¬ a.toNat < c.toNat := by omega
                have hca : ¬ c.toNat < a.toNat := by omega
                simp only [lexLtB, if_neg hac, if_neg hca]
                exact ih bs2 cs2 h1 h2

theorem lexLtB_eq_of_not_lt :
    ∀ as bs : List Char,
      lexLtB as bs = false → lexLtB bs as = false → as = bs := by
  intro as
  induction as with
  | nil =>
    intro bs h1 _
    cases bs with
    | nil => rfl
    | cons b bs2 => simp [lexLtB] at h1
  | cons a as2 ih =>
    intro bs h1 h2
    cases bs with
    | nil => simp [lexLtB] at h2
    | cons b bs2 =>
      by_cases hab : a.toNat < b.toNat
      · simp [lexLtB, hab] at h1
      · by_cases hba : b.toNat < a.toNat
        · simp [lexLtB, hba, hab] at h2
        · simp only [lexLtB, if_neg hab, if_neg hba] at h1 h2
          have : a = b := charToNat_inj (by omega)
          rw [this, ih bs2 h1 h2]

instance : IsTotal String strLe := by
  constructor
  intro a b
  by_cases h : strLtB b a = true
  · right
    exact lexLtB_asymm b.data a.data h
  · left
    unfold strLe
    simpa using h

instance : IsTrans String strLe := by
  constructor
  intro a b c hab hbc
  unfold strLe strLtB at hab hbc ⊢
  by_cases hca : lexLtB c.data a.data = true
  · exfalso
    by_cases hbc2 : lexLtB b.data c.data = true
    · have h2 : lexLtB b.data a.data = true := lexLtB_trans _ _ _ hbc2 hca
      rw [h2] at hab
      simp at hab
    · have hbceq : b.data = c.data := lexLtB_eq_of_not_lt _ _
        (Bool.of_not_eq_true hbc2) hbc
      have h2 : lexLtB b.data a.data = true := by rw [hbceq]; exact hca
      rw [h2] at hab
      simp at hab
  · simpa using hca

end PasswordAnalyzer

namespace PasswordAnalyzer

/-! ### Structure of `permutations_case` -/

theorem pySetAdd_nil (x : String) : pySetAdd [] x = [x] := by
  simp [pySetAdd]

theorem mem_permutations_case {w x : String} :
    x ∈ permutations_case w ↔
      x = w ∨ x = pyLower w ∨ x = pyUpper w ∨ x = pyCapitalize w ∨
        (1 < w.data.length ∧ x = firstUpperRestLower w) := by
  simp only [permutations_case]
  rw [List.mem_insertionSort]
  by_cases h : 1 < w.data.length
  · rw [if_pos h]
    simp only [mem_pySetAdd, List.not_mem_nil, false_or]
    tauto
  · rw [if_neg h]
    simp only [mem_pySetAdd, List.not_mem_nil, false_or]
    tauto

theorem permutations_case_nodup (w : String) : (permutations_case w).Nodup := by
  simp only [permutations_case]
  refine (List.perm_insertionSort strLe _).symm.nodup ?_
  have h0 : (pySetAdd [] w).Nodup := pySetAdd_nodup List.nodup_nil w
  have h1 := pySetAdd_nodup (pySetAdd_nodup (pySetAdd_nodup h0 (pyLower w))
    (pyUpper w)) (pyCapitalize w)
  by_cases h : 1 < w.data.length
  · rw [if_pos h]
    exact pySetAdd_nodup h1 (firstUpperRestLower w)
  · rw [if_neg h]
    exact h1

theorem permutations_case_sorted (w : String) :
    List.Sorted strLe (permutations_case w) :=
  List.sorted_insertionSort strLe _

theorem pyLower_data_length (s : String) :
    (pyLower s).data.length = s.data.length := by
  simp [pyLower]

theorem pyUpper_data_length (s : String) :
    (pyUpper s).data.length = s.data.length := by
  simp [pyUpper]

theorem pyCapitalize_data_length (s : String) :
    (pyCapitalize s).data.length = s.data.length := by
  unfold pyCapitalize
  cases h : s.data with
  | nil => simp [h]
  | cons c cs => simp [h]

theorem firstUpperRestLower_data_length (s : String) :
    (firstUpperRestLower s).data.length = s.data.length := by
  unfold firstUpperRestLower
  cases h : s.data with
  | nil => simp [h]
  | cons c cs => simp [h]

theorem mem_permutations_case_length {w x : String}
    (h : x ∈ permutations_case w) : x.data.length = w.data.length := by
  rcases mem_permutations_case.mp h with rfl | rfl | rfl | rfl | ⟨_, rfl⟩
  · rfl
  · exact pyLower_data_length w
  · exact pyUpper_data_length w
  · exact pyCapitalize_data_length w
  · exact firstUpperRestLower_data_length w

/-! ### Structure of `leet_variants` -/

theorem applyCombo_length (chars : List Char) (combo : List Nat) :
    (applyCombo chars combo).length = chars.length := by
  unfold applyCombo
  have aux : ∀ (combo2 : List Nat) (base : List Char),
      base.length = chars.length →
      (combo2.foldl (fun base idx =>
        match leetLookup (chars.getD idx ' ') with
        | some (c :: _) => base.set idx c
        | _ => base) base).length = chars.length := by
    intro combo2
    induction combo2 with
    | nil => intro base hb; simpa using hb
    | cons i is ih =>
      intro base hb
      simp only [List.foldl_cons]
      apply ih
      cases hl : leetLookup (chars.getD i ' ') with
      | none => simpa using hb
      | some cs =>
        cases cs with
        | nil => simpa using hb
        | cons c cs2 => simpa using hb
  exact aux combo chars rfl

theorem leetAll_length (chars : List Char) :
    (leetAll chars).length = chars.length := by
  simp [leetAll]

theorem mem_leetFold {chars : List Char} {indices : List Nat}
    {acc : List String} {x : String} (h : x ∈ leetFold chars indices acc) :
    x ∈ acc ∨ x.data.length = chars.length := by
  unfold leetFold at h
  refine foldl_mem_of_step _ (fun y => y.data.length = chars.length) ?_ _ _ _ h
  intro vs r y hy
  refine foldl_mem_of_step _ (fun y => y.data.length = chars.length) ?_ _ _ _ hy
  intro vs2 combo z hz
  rcases mem_pySetAdd.mp hz with h2 | h2
  · exact Or.inl h2
  · right
    rw [h2]
    simpa using applyCombo_length chars combo

theorem leetFold_extends (chars : List Char) (indices : List Nat)
    (acc : List String) : ∃ t, leetFold chars indices acc = acc ++ t := by
  unfold leetFold
  refine foldl_extends _ ?_ _ _
  intro vs r
  exact foldl_extends _ (fun vs2 combo => pySetAdd_extends vs2 _) _ vs

theorem mem_leetVariantsSet_length {w x : String}
    (h : x ∈ leetVariantsSet w) : x.data.length = w.data.length := by
  simp only [leetVariantsSet] at h
  by_cases hc : w.data.any (fun ch => (leetLookup ch).isSome)
  · rw [if_pos hc] at h
    rcases mem_pySetAdd.mp h with h3 | h3
    · rcases mem_leetFold h3 with h4 | h4
      · rw [pySetAdd_nil] at h4
        rw [List.mem_singleton.mp h4]
      · exact h4
    · rw [h3]
      simpa using leetAll_length w.data
  · rw [if_neg hc] at h
    rcases mem_leetFold h with h4 | h4
    · rw [pySetAdd_nil] at h4
      rw [List.mem_singleton.mp h4]
    · exact h4

theorem mem_leet_variants_length {w x : String} {mv : Nat}
    (h : x ∈ leet_variants w mv) : x.data.length = w.data.length :=
  mem_leetVariantsSet_length (List.take_subset _ _ h)

theorem leetVariantsSet_self (w : String) : w ∈ leetVariantsSet w := by
  simp only [leetVariantsSet]
  rw [pySetAdd_nil]
  obtain ⟨t1, ht1⟩ := leetFold_extends w.data (leetIndices w.data) [w]
  by_cases hc : w.data.any (fun ch => (leetLookup ch).isSome)
  · rw [if_pos hc]
    obtain ⟨t2, ht2⟩ := pySetAdd_extends
      (leetFold w.data (leetIndices w.data) [w])
      (String.mk (leetAll w.data))
    rw [ht2, ht1]
    simp
  · rw [if_neg hc, ht1]
    simp

/-! ### Structure of `permsR` -/

theorem selectOne_perm {l : List α} {p : α × List α} (h : p ∈ selectOne l) :
    (p.1 :: p.2).Perm l := by
  induction l generalizing p with
  | nil => simp [selectOne] at h
  | cons x xs ih =>
    simp only [selectOne, List.mem_cons, List.mem_map] at h
    rcases h with rfl | ⟨q, hq, rfl⟩
    · exact List.Perm.refl _
    · have h2 := ih hq
      have hsw : List.Perm (q.1 :: x :: q.2) (x :: q.1 :: q.2) :=
        List.Perm.swap x q.1 q.2
      exact hsw.trans (h2.cons x)

theorem permsR_spec :
    ∀ (r : Nat) (l : List α) (c : List α), c ∈ permsR l r →
      c.length = r ∧ c.Subperm l := by
  intro r
  induction r with
  | zero =>
    intro l c hc
    simp only [permsR, List.mem_singleton] at hc
    subst hc
    exact ⟨rfl, List.nil_subperm⟩
  | succ r ih =>
    intro l c hc
    simp only [permsR, List.mem_flatMap, List.mem_map] at hc
    obtain ⟨p, hp, c2, hc2, rfl⟩ := hc
    obtain ⟨hlen, hsub⟩ := ih p.2 c2 hc2
    refine ⟨by simp [hlen], ?_⟩
    obtain ⟨m, hm1, hm2⟩ := hsub
    have h1 : List.Subperm (p.1 :: c2) (p.1 :: p.2) :=
      ⟨p.1 :: m, hm1.cons p.1, hm2.cons₂ p.1⟩
    exact h1.trans (selectOne_perm hp).subperm

/-! ### Structure of `generate_from_parts` -/

theorem join_data : ∀ l : List String,
    (String.join l).data = (l.map String.data).flatten := by
  have aux : ∀ (l : List String) (acc : String),
      (l.foldl (fun r s => r ++ s) acc).data =
        acc.data ++ (l.map String.data).flatten := by
    intro l
    induction l with
    | nil => intro acc; simp
    | cons x xs ih =>
      intro acc
      simp [List.foldl_cons, ih, List.append_assoc]
  intro l
  have h := aux l ""
  simpa [String.join] using h

theorem wordsListOf_nil (years : List Int) (ar rp : Bool) :
    wordsListOf [] years ar rp = [] := rfl

theorem gen_eq_take (parts : List String) (years : List Int) (mw : Nat)
    (ar rp : Bool) :
    generate_from_parts parts years mw ar rp =
      (wordsListOf (pyFilter parts) years ar rp).take mw := by
  simp only [generate_from_parts]
  by_cases h : (pyFilter parts).isEmpty
  · rw [if_pos h]
    rw [List.isEmpty_iff.mp h, wordsListOf_nil]
    simp
  · rw [if_neg h]
    by_cases h2 : mw < (wordsListOf (pyFilter parts) years ar rp).length
    · rw [if_pos h2]
    · rw [if_neg h2]
      exact (List.take_of_length_le (Nat.le_of_not_lt h2)).symm

theorem mem_wordsListOf {parts : List String} {years : List Int}
    {ar rp : Bool} {x : String} :
    x ∈ wordsListOf parts years ar rp ↔
      x ∈ addedStrings parts years ar rp := by
  unfold wordsListOf
  rw [List.mem_insertionSort, foldl_pySetAdd_mem]
  simp

theorem wordsListOf_sorted (parts : List String) (years : List Int)
    (ar rp : Bool) : List.Sorted strLe (wordsListOf parts years ar rp) :=
  List.sorted_insertionSort strLe _

theorem wordsListOf_nodup (parts : List String) (years : List Int)
    (ar rp : Bool) : (wordsListOf parts years ar rp).Nodup :=
  (List.perm_insertionSort strLe _).symm.nodup
    (foldl_pySetAdd_nodup _ _ List.nodup_nil)

theorem sorted_take {l : List String} (h : List.Sorted strLe l) (n : Nat) :
    List.Sorted strLe (l.take n) :=
  List.Pairwise.sublist (List.take_sublist n l) h

end PasswordAnalyzer


namespace PasswordAnalyzer

/-! ### Non-emptiness of every generated string -/

theorem mem_formDecorations_ne_nil {years : List Int} {form x : String}
    (hform : form.data ≠ []) (h : x ∈ formDecorations years form) :
    x.data ≠ [] := by
  simp only [formDecorations, List.mem_cons, List.mem_append, List.mem_map,
    or_assoc] at h
  rcases h with rfl | h | ⟨suf, _, rfl⟩ | ⟨pre, _, rfl⟩ | ⟨y, _, rfl⟩
  · exact hform
  · have hlen := mem_leet_variants_length h
    have hpos : 0 < form.data.length := List.length_pos.mpr hform
    exact List.ne_nil_of_length_pos (hlen ▸ hpos)
  · simp only [String.data_append]
    exact List.append_ne_nil_of_left_ne_nil hform _
  · simp only [String.data_append]
    exact List.append_ne_nil_of_right_ne_nil _ hform
  · simp only [String.data_append]
    exact List.append_ne_nil_of_left_ne_nil hform _

theorem mem_partAdds_ne_nil {years : List Int} {ar rp : Bool}
    {part x : String} (hpart : part.data ≠ [])
    (h : x ∈ partAdds years ar rp part) : x.data ≠ [] := by
  simp only [partAdds, List.mem_append, List.mem_flatMap, or_assoc] at h
  rcases h with ⟨form, hform, hx⟩ | h | h
  · have hf : form.data ≠ [] := by
      have hlen := mem_permutations_case_length hform
      have hpos : 0 < part.data.length := List.length_pos.mpr hpart
      exact List.ne_nil_of_length_pos (hlen ▸ hpos)
    exact mem_formDecorations_ne_nil hf hx
  · split at h
    · rw [List.mem_singleton.mp h]
      simpa [pyReverse] using hpart
    · simp at h
  · simp only [singleRepeats] at h
    split at h
    · simp only [List.mem_cons, List.mem_singleton, List.not_mem_nil,
        or_false] at h
      rcases h with rfl | rfl
      · simp only [String.data_append]
        exact List.append_ne_nil_of_left_ne_nil hpart _
      · simp only [String.data_append]
        exact List.append_ne_nil_of_right_ne_nil _ hpart
    · simp at h

theorem mem_comboAdds_ne_nil {years : List Int} {ar rp : Bool}
    {base x : String} (hbase : base.data ≠ [])
    (h : x ∈ comboAdds years ar rp base) : x.data ≠ [] := by
  simp only [comboAdds, List.mem_append, List.mem_flatMap, or_assoc] at h
  rcases h with ⟨form, hform, hx⟩ | h | h
  · have hf : form.data ≠ [] := by
      have hlen := mem_permutations_case_length hform
      have hpos : 0 < base.data.length := List.length_pos.mpr hbase
      exact List.ne_nil_of_length_pos (hlen ▸ hpos)
    exact mem_formDecorations_ne_nil hf hx
  · split at h
    · rw [List.mem_singleton.mp h]
      simpa [pyReverse] using hbase
    · simp at h
  · simp only [comboRepeats] at h
    split at h
    · rw [List.mem_singleton.mp h]
      simp only [String.data_append]
      exact List.append_ne_nil_of_left_ne_nil hbase _
    · simp at h

theorem mem_addedStrings_ne_nil {parts : List String} {years : List Int}
    {ar rp : Bool} {x : String} (hp : ∀ p ∈ parts, p.data ≠ [])
    (h : x ∈ addedStrings parts years ar rp) : x.data ≠ [] := by
  simp only [addedStrings, List.mem_append, List.mem_flatMap, List.mem_map] at h
  rcases h with ⟨part, hpart, hx⟩ | ⟨r, ⟨r0, _, rfl⟩, combo, hcombo, hx⟩
  · exact mem_partAdds_ne_nil (hp part hpart) hx
  · obtain ⟨hlen, hsub⟩ := permsR_spec (r0 + 1) parts combo hcombo
    have hjoin : (String.join combo).data ≠ [] := by
      rw [join_data]
      cases combo with
      | nil => simp at hlen
      | cons q rest =>
        have hq : q.data ≠ [] := hp q (hsub.subset (List.mem_cons_self q rest))
        simp only [List.map_cons, List.flatten_cons]
        exact List.append_ne_nil_of_left_ne_nil hq _
    exact mem_comboAdds_ne_nil hjoin hx

theorem pyFilter_mem_ne_nil {parts : List String} {p : String}
    (hp : p ∈ pyFilter parts) : p.data ≠ [] := by
  simp only [pyFilter, List.mem_filter, Bool.and_eq_true, Bool.not_eq_true',
    List.isEmpty_eq_true] at hp
  intro hnil
  have h2 := hp.2.1
  rw [hnil] at h2
  simp at h2

/-! ### Fail-soft behaviour of `mapM` under a failing parse -/

theorem mapM_pyInt_none :
    ∀ (l : List String) (t : String), t ∈ l → pyInt t = none →
      l.mapM pyInt = none := by
  intro l
  induction l with
  | nil => intro t ht; simp at ht
  | cons a as ih =>
    intro t ht hnone
    rw [List.mapM_cons]
    rcases List.mem_cons.mp ht with rfl | h2
    · simp only [hnone]
      rfl
    · cases hpa : pyInt a with
      | none => rfl
      | some v =>
        simp only [ih t h2 hnone]
        rfl

end PasswordAnalyzer

namespace PasswordAnalyzer

/-!
### The specification claims
-/

/-- C1 (corrected): the claim says that a raw year token failing integer
parsing makes `expand_years` return an empty list (fail-soft).  In fact
`expand_years` has no exception handler: any sequence containing an
unparseable token makes it raise `ValueError` (modelled as `none`), and
it never returns the empty list in that situation.  The fail-soft
empty-list policy exists only in `interactive_collect`, and only on its
non-two-token path. -/
theorem expand_years_raises_on_unparseable (ts : List String)
    (h : ∃ t ∈ ts, pyInt t = none) : expand_years ts = none := by
  obtain ⟨t, ht, hnone⟩ := h
  cases ts with
  | nil => simp at ht
  | cons a l =>
    cases l with
    | nil =>
      have ha : t = a := by simpa using ht
      subst ha
      simp [expand_years, hnone]
    | cons b l2 =>
      cases l2 with
      | nil =>
        simp only [List.mem_cons, List.not_mem_nil, or_false] at ht
        rcases ht with rfl | rfl
        · simp [expand_years, hnone]
        · simp only [expand_years]
          cases hpa : pyInt a with
          | none => rfl
          | some va => simp [hnone]
      | cons c l3 =>
        exact mapM_pyInt_none (a :: b :: c :: l3) t ht hnone

/-- Witness for C1's theorem at the concrete input `["12x"]`. -/
theorem expand_years_raises_on_unparseable_witness :
    expand_years ["12x"] = none :=
  expand_years_raises_on_unparseable ["12x"] ⟨"12x", by decide, by decide⟩

/-- Counterexample for C1 as stated: on `["abc"]` the expansion raises
(`none`); it does not return the empty list. -/
theorem expand_years_unparseable_counterexample :
    expand_years ["abc"] ≠ some [] := by decide

/-- C2 (corrected): a two-element input is never returned as the flat
list of its two parsed values; it is always range-expanded between the
smaller and the larger value inclusive.  When the values differ by
exactly one the range coincides with the two discrete years in ascending
order (`range(a, a+2) = [a, a+1]`), and when they are equal the result
is the single common year once (`range(a, a+1) = [a]`), not a
two-element list. -/
theorem expand_years_two_element_always_range (s0 s1 : String) (a b : Int)
    (h0 : pyInt s0 = some a) (h1 : pyInt s1 = some b) :
    expand_years [s0, s1] =
      some (if a ≤ b then pyRange a (b + 1) else pyRange b (a + 1)) ∧
    pyRange a (a + 1 + 1) = [a, a + 1] ∧
    pyRange a (a + 1) = [a] := by
  refine ⟨?_, ?_, ?_⟩
  · simp only [expand_years, h0, h1, Option.some_bind]
    split <;> rfl
  · have h2 : (a + 1 + 1 - a).toNat = 2 := by omega
    rw [pyRange, h2]
    simp [List.range_succ]
  · have h2 : (a + 1 - a).toNat = 1 := by omega
    rw [pyRange, h2]
    simp [List.range_succ]

/-- Witness for C2's theorem at the concrete input `["2021", "2020"]`. -/
theorem expand_years_two_element_always_range_witness :
    expand_years ["2021", "2020"] =
      some (if (2021 : Int) ≤ 2020 then pyRange 2021 (2020 + 1)
        else pyRange 2020 (2021 + 1)) ∧
    pyRange 2021 (2021 + 1 + 1) = [2021, 2021 + 1] ∧
    pyRange 2021 (2021 + 1) = [2021] :=
  expand_years_two_element_always_range "2021" "2020" 2021 2020
    (by decide) (by decide)

/-- Counterexample for C2 as stated: the equal-valued pair
`["2020", "2020"]` (difference 0 ≤ 1) yields the one-element list
`[2020]`, not the two discrete years. -/
theorem expand_years_equal_pair_counterexample :
    expand_years ["2020", "2020"] = some [2020] ∧
    expand_years ["2020", "2020"] ≠ some [2020, 2020] := by decide

end PasswordAnalyzer

namespace PasswordAnalyzer

/-- C4 (corrected): the result of `leet_variants` contains the original
string whenever the accumulated variant set fits within the bound, so
that the truncation `list(variants)[:max_variants]` drops nothing.
This is the strongest form the source guarantees: when the variant
count exceeds the bound, CPython slices the set in an
implementation-defined iteration order and the original may be dropped
(and at bound `0` the result is empty regardless of order). -/
theorem leet_variants_contains_original (w : String) (mv : Nat)
    (h : (leetVariantsSet w).length ≤ mv) : w ∈ leet_variants w mv := by
  unfold leet_variants
  rw [List.take_of_length_le h]
  exact leetVariantsSet_self w

/-- Witness for C4's theorem at the concrete input `("password", 40)`,
whose 12 variants fit within the default bound 40. -/
theorem leet_variants_contains_original_witness :
    "password" ∈ leet_variants "password" 40 :=
  leet_variants_contains_original "password" 40 (by decide)

/-- Counterexample for C4 as stated: with maximum-variants bound `0` the
result is empty and does not contain the original string. -/
theorem leet_variants_zero_bound_counterexample :
    "a" ∉ leet_variants "a" 0 := by decide

/-- C5 (corrected): every Candidate Base combination drawn by the
engine (`itertools.permutations(parts, r)`) picks `r` *distinct
positions* of the filtered token list, so its length is `r` and its
multiset of tokens is a sub-multiset of the filtered token list.
Positions, not values, are distinct: the list is not deduplicated, so a
token supplied twice can appear twice within one permutation. -/
theorem candidate_base_positional_permutation (parts : List String)
    (r : Nat) (combo : List String)
    (h : combo ∈ permsR (pyFilter parts) r) :
    combo.length = r ∧ combo.Subperm (pyFilter parts) :=
  permsR_spec r (pyFilter parts) combo h

/-- Witness for C5's theorem at the concrete input
`parts = ["a", "b"]`, `r = 2`, `combo = ["b", "a"]`. -/
theorem candidate_base_positional_permutation_witness :
    (["b", "a"] : List String).length = 2 ∧
      (["b", "a"] : List String).Subperm (pyFilter ["a", "b"]) :=
  candidate_base_positional_permutation ["a", "b"] 2 ["b", "a"] (by decide)

/-- C6 (confirmed): the sequence returned by `generate_from_parts` is
sorted ascending in the code-point lexicographic order and contains no
duplicate entries, for every input. -/
theorem generate_sorted_nodup (parts : List String) (years : List Int)
    (mw : Nat) (ar rp : Bool) :
    List.Sorted strLe (generate_from_parts parts years mw ar rp) ∧
    (generate_from_parts parts years mw ar rp).Nodup := by
  rw [gen_eq_take]
  exact ⟨sorted_take (wordsListOf_sorted _ _ _ _) mw,
    List.Nodup.sublist (List.take_sublist _ _) (wordsListOf_nodup _ _ _ _)⟩

/-- C7 (confirmed): the output length never exceeds `max_words`; when
the untruncated sorted word list fits within `max_words` nothing is
dropped; and enlarging `max_words` only extends the output at the end
(the smaller run is an initial segment of the larger run). -/
theorem generate_truncation_cap (parts : List String) (years : List Int)
    (mw mw2 : Nat) (ar rp : Bool) :
    (generate_from_parts parts years mw ar rp).length ≤ mw ∧
    ((wordsListOf (pyFilter parts) years ar rp).length ≤ mw →
      generate_from_parts parts years mw ar rp =
        wordsListOf (pyFilter parts) years ar rp) ∧
    (mw ≤ mw2 → ∃ t, generate_from_parts parts years mw ar rp ++ t =
      generate_from_parts parts years mw2 ar rp) := by
  refine ⟨?_, ?_, ?_⟩
  · rw [gen_eq_take, List.length_take]
    exact Nat.min_le_left _ _
  · intro h
    rw [gen_eq_take]
    exact List.take_of_length_le h
  · intro h
    rw [gen_eq_take parts years mw ar rp, gen_eq_take parts years mw2 ar rp]
    have h2 : (wordsListOf (pyFilter parts) years ar rp).take mw =
        ((wordsListOf (pyFilter parts) years ar rp).take mw2).take mw := by
      rw [List.take_take, Nat.min_eq_left h]
    rw [h2]
    exact ⟨((wordsListOf (pyFilter parts) years ar rp).take mw2).drop mw,
      List.take_append_drop mw _⟩

/-- Witness for C7's theorem at concrete inputs, with both hypotheses
discharged. -/
theorem generate_truncation_cap_witness :
    (generate_from_parts ["a"] [] 5 false false).length ≤ 5 ∧
    generate_from_parts ["a"] [] 100 false false =
      wordsListOf (pyFilter ["a"]) [] false false ∧
    (∃ t, generate_from_parts ["a"] [] 5 false false ++ t =
      generate_from_parts ["a"] [] 7 false false) :=
  ⟨(generate_truncation_cap ["a"] [] 5 5 false false).1,
   (generate_truncation_cap ["a"] [] 100 100 false false).2.1 (by decide),
   (generate_truncation_cap ["a"] [] 5 7 false false).2.2 (by decide)⟩

/-- C8 (confirmed): with repetition enabled, every single token (a
single-token Candidate Base) contributes both its doubled and its
tripled concatenation to the output, while the repetition rule of the
combination loop (`comboRepeats`, the only repetition applied to
multi-token bases) adds exactly the doubled form of a base and never the
tripled form. -/
theorem repeats_rule (parts : List String) (years : List Int) (mw : Nat)
    (ar : Bool) (p base : String)
    (hp : p ∈ pyFilter parts)
    (hlen : (wordsListOf (pyFilter parts) years ar true).length ≤ mw)
    (hbase : base ≠ "") :
    (p ++ p) ∈ generate_from_parts parts years mw ar true ∧
    (p ++ p ++ p) ∈ generate_from_parts parts years mw ar true ∧
    comboRepeats true base = [base ++ base] ∧
    (base ++ base ++ base) ∉ comboRepeats true base := by
  have hgen : generate_from_parts parts years mw ar true =
      wordsListOf (pyFilter parts) years ar true := by
    rw [gen_eq_take]
    exact List.take_of_length_le hlen
  refine ⟨?_, ?_, rfl, ?_⟩
  · rw [hgen, mem_wordsListOf]
    simp only [addedStrings, List.mem_append, List.mem_flatMap]
    left
    exact ⟨p, hp, by simp [partAdds, singleRepeats]⟩
  · rw [hgen, mem_wordsListOf]
    simp only [addedStrings, List.mem_append, List.mem_flatMap]
    left
    exact ⟨p, hp, by simp [partAdds, singleRepeats]⟩
  · intro hmem
    have heq := List.mem_singleton.mp hmem
    have hdata := congrArg String.data heq
    simp only [String.data_append] at hdata
    have hlen2 := congrArg List.length hdata
    simp only [List.length_append] at hlen2
    have hnil : base.data = [] := List.eq_nil_of_length_eq_zero (by omega)
    exact hbase (String.ext (by rw [hnil]))

/-- Witness for C8's theorem at the concrete inputs `parts = ["ab"]`,
`p = "ab"`, `base = "xy"`, with all hypotheses discharged. -/
theorem repeats_rule_witness :
    ("ab" ++ "ab") ∈ generate_from_parts ["ab"] [] 20000 false true ∧
    ("ab" ++ "ab" ++ "ab") ∈ generate_from_parts ["ab"] [] 20000 false true ∧
    comboRepeats true "xy" = ["xy" ++ "xy"] ∧
    ("xy" ++ "xy" ++ "xy") ∉ comboRepeats true "xy" :=
  repeats_rule ["ab"] [] 20000 false "ab" "xy" (by decide) (by decide)
    (by decide)

/-- C9 (confirmed): for every non-empty string the case-variant
generator returns a deduplicated, code-point-lexicographically sorted
list containing the original, the lowercased, the uppercased and the
capitalized forms, plus the first-character-upper-rest-lower form when
the string has more than one character; and
`permutations_case "abc" = ["ABC", "Abc", "abc"]`. -/
theorem permutations_case_contract (s : String) (h : s ≠ "") :
    (permutations_case s).Nodup ∧
    List.Sorted strLe (permutations_case s) ∧
    s ∈ permutations_case s ∧
    pyLower s ∈ permutations_case s ∧
    pyUpper s ∈ permutations_case s ∧
    pyCapitalize s ∈ permutations_case s ∧
    (1 < s.data.length → firstUpperRestLower s ∈ permutations_case s) ∧
    permutations_case "abc" = ["ABC", "Abc", "abc"] := by
  refine ⟨permutations_case_nodup s, permutations_case_sorted s,
    ?_, ?_, ?_, ?_, ?_, by decide⟩
  · exact mem_permutations_case.mpr (Or.inl rfl)
  · exact mem_permutations_case.mpr (Or.inr (Or.inl rfl))
  · exact mem_permutations_case.mpr (Or.inr (Or.inr (Or.inl rfl)))
  · exact mem_permutations_case.mpr (Or.inr (Or.inr (Or.inr (Or.inl rfl))))
  · intro hl
    exact mem_permutations_case.mpr
      (Or.inr (Or.inr (Or.inr (Or.inr ⟨hl, rfl⟩))))

/-- Witness for C9's theorem at the concrete input `"abc"`, with the
inner length hypothesis also discharged. -/
theorem permutations_case_contract_witness :
    "abc" ∈ permutations_case "abc" ∧
    firstUpperRestLower "abc" ∈ permutations_case "abc" ∧
    permutations_case "abc" = ["ABC", "Abc", "abc"] :=
  ⟨(permutations_case_contract "abc" (by decide)).2.2.1,
   (permutations_case_contract "abc" (by decide)).2.2.2.2.2.2.1 (by decide),
   (permutations_case_contract "abc" (by decide)).2.2.2.2.2.2.2⟩

/-- C10 (confirmed): whenever at least one token survives the blank
filter, the empty string never appears in the output of
`generate_from_parts`, although the configured suffix and prefix lists
both contain the empty string. -/
theorem generate_no_empty_string (parts : List String) (years : List Int)
    (mw : Nat) (ar rp : Bool) (h : pyFilter parts ≠ []) :
    "" ∉ generate_from_parts parts years mw ar rp := by
  intro hmem
  rw [gen_eq_take] at hmem
  have h2 := List.take_subset _ _ hmem
  rw [mem_wordsListOf] at h2
  have h3 : ∀ p ∈ pyFilter parts, p.data ≠ [] :=
    fun p hp => pyFilter_mem_ne_nil hp
  exact mem_addedStrings_ne_nil h3 h2 rfl

/-- Witness for C10's theorem at the concrete input `["a"]`. -/
theorem generate_no_empty_string_witness :
    "" ∉ generate_from_parts ["a"] [] 20000 false false :=
  generate_no_empty_string ["a"] [] 20000 false false (by decide)

end PasswordAnalyzer

namespace PasswordAnalyzer

/-- C3 (corrected): on `generate_from_parts(["Sam"], years=[2024],
max_words=1000)` the output contains `"Sam2024"`, `"sam2024"`,
`"SAM2024"` and the leet-substituted form `"54m"` of `"Sam"`, but no
leet variant carries the year suffix: the engine appends years only to
case variants, never to leet variants (e.g. `"54m2024"` is absent). -/
theorem generate_sam_year_decorations :
    "Sam2024" ∈ generate_from_parts ["Sam"] [2024] 1000 false false ∧
    "sam2024" ∈ generate_from_parts ["Sam"] [2024] 1000 false false ∧
    "SAM2024" ∈ generate_from_parts ["Sam"] [2024] 1000 false false ∧
    "54m" ∈ generate_from_parts ["Sam"] [2024] 1000 false false ∧
    "54m2024" ∉ generate_from_parts ["Sam"] [2024] 1000 false false := by
  decide

/-- Counterexample for C3 as stated: *no* proper leet-substituted form
of any case variant of `"Sam"` appears in the output with the suffix
`"2024"` appended; the engine does not decorate leet variants with year
suffixes. -/
theorem generate_sam_leet_year_counterexample :
    ((permutations_case "Sam").flatMap
      (fun cf => (leet_variants cf MAX_LEET_VARIANTS_PER_WORD).filter
        (fun lv => lv != cf))).all
      (fun lv => !(decide ((lv ++ "2024") ∈
        generate_from_parts ["Sam"] [2024] 1000 false false))) = true := by
  decide

/-- Counterexample for C5 as stated: the duplicated token list
`["a", "a"]` produces the base `"aa"` in which the token `"a"` appears
twice, while the deduplicated list `["a"]` does not produce it. -/
theorem duplicate_token_counterexample :
    "aa" ∈ generate_from_parts ["a", "a"] [] 20000 false false ∧
    "aa" ∉ generate_from_parts ["a"] [] 20000 false false := by
  decide

end PasswordAnalyzer
